import Mathlib

/-!
Verification of the minimal container/utility runtime in
`src/mdbtools_c/` (mdbfakeglib.c, mdbtools-missing 2.c, MoneyMDBHelpers.c).

Each C function used by a claim is shallowly embedded as a Lean function:
byte buffers become `List Nat` (one `Nat` per byte; stores into
`unsigned char` are taken modulo 256), in-place mutation becomes explicit
state passing, and buffer writes through a destination pointer are
modelled by rebuilding the list around the written region.
-/

set_option maxRecDepth 8000

namespace MdbCore

/-! ## Stream cipher: `mdbi_rc4` (mdbtools-missing 2.c, lines 159-192)

The 256-entry permutation table `s` is a `List Nat`; `s[i]` is `s.getD i 0`
and the C swap `t = s[i]; s[i] = s[j]; s[j] = t` is `rcSwap`. -/

/-- The three-assignment swap of `s[a]` and `s[b]` from the C source. -/
def rcSwap (s : List Nat) (a b : Nat) : List Nat :=
  (s.set a (s.getD b 0)).set b (s.getD a 0)

/-- One iteration of the key-scheduling loop:
`j = (j + s[i] + key[i % key_len]) % 256` followed by the swap. -/
def ksaStep (key : List Nat) (st : List Nat × Nat) (i : Nat) : List Nat × Nat :=
  let j := (st.2 + st.1.getD i 0 + key.getD (i % key.length) 0) % 256
  (rcSwap st.1 i j, j)

/-- The key-scheduling algorithm: the table starts as the identity
permutation `0..255` and the mixing loop runs for `i = 0..255`. -/
def rc4ksa (key : List Nat) : List Nat :=
  ((List.range 256).foldl (ksaStep key) (List.range 256, 0)).1

/-- One step of the pseudo-random generation loop: advance `i` and `j`,
swap, and return the new state plus the keystream byte
`s[(s[i] + s[j]) % 256]`. -/
def prgaStep (st : List Nat × Nat × Nat) : (List Nat × Nat × Nat) × Nat :=
  let i := (st.2.1 + 1) % 256
  let j := (st.2.2 + st.1.getD i 0) % 256
  let s := rcSwap st.1 i j
  ((s, i, j), s.getD ((s.getD i 0 + s.getD j 0) % 256) 0)

/-- The generation loop: XOR each data byte with the next keystream byte
(the store into an `unsigned char` is mod 256). -/
def prgaRun (st : List Nat × Nat × Nat) : List Nat → List Nat
  | [] => []
  | b :: rest =>
    let out := prgaStep st
    (b ^^^ out.2) % 256 :: prgaRun out.1 rest

/-- `mdbi_rc4(key, key_len, data, data_len)`: KSA over the key, then the
PRGA XOR pass over the data, returning the mutated data buffer. -/
def mdbi_rc4 (key data : List Nat) : List Nat :=
  prgaRun (rc4ksa key, 0, 0) data

theorem getD_lt_of_forall {s : List Nat} (h : ∀ x ∈ s, x < 256) (i : Nat) :
    s.getD i 0 < 256 := by
  rw [List.getD_eq_getElem?_getD]
  cases hlt : s[i]? with
  | none => simp
  | some v =>
    have hv : v ∈ s := List.getElem?_mem hlt
    simpa using h v hv

theorem rcSwap_lt {s : List Nat} (h : ∀ x ∈ s, x < 256) (a b : Nat) :
    ∀ x ∈ rcSwap s a b, x < 256 := by
  intro x hx
  rcases List.mem_or_eq_of_mem_set hx with hx' | hx'
  · rcases List.mem_or_eq_of_mem_set hx' with hx'' | hx''
    · exact h x hx''
    · subst hx''; exact getD_lt_of_forall h b
  · subst hx'; exact getD_lt_of_forall h a

theorem ksa_foldl_lt (key : List Nat) :
    ∀ (l : List Nat) (st : List Nat × Nat), (∀ x ∈ st.1, x < 256) →
      ∀ x ∈ (l.foldl (ksaStep key) st).1, x < 256 := by
  intro l
  induction l with
  | nil => intro st h; exact h
  | cons i t ih =>
    intro st h
    exact ih _ (rcSwap_lt h _ _)

theorem rc4ksa_lt (key : List Nat) : ∀ x ∈ rc4ksa key, x < 256 := by
  intro x hx
  unfold rc4ksa at hx
  exact ksa_foldl_lt key (List.range 256) (List.range 256, 0)
    (fun y hy => List.mem_range.mp hy) x hx

attribute [irreducible] rc4ksa

theorem prgaStep_bound {st : List Nat × Nat × Nat} (h : ∀ x ∈ st.1, x < 256) :
    (∀ x ∈ (prgaStep st).1.1, x < 256) ∧ (prgaStep st).2 < 256 := by
  constructor
  · exact rcSwap_lt h _ _
  · exact getD_lt_of_forall (rcSwap_lt h _ _) _

theorem prgaRun_invol (data : List Nat) :
    ∀ st : List Nat × Nat × Nat, (∀ b ∈ data, b < 256) → (∀ x ∈ st.1, x < 256) →
      prgaRun st (prgaRun st data) = data := by
  induction data with
  | nil => intro st _ _; rfl
  | cons b rest ih =>
    intro st hd hs
    have hb : b < 256 := hd b (by simp)
    have hk : (prgaStep st).2 < 256 := (prgaStep_bound hs).2
    have hs' : ∀ x ∈ (prgaStep st).1.1, x < 256 := (prgaStep_bound hs).1
    have hxor : b ^^^ (prgaStep st).2 < 256 := by
      have := @Nat.xor_lt_two_pow b (prgaStep st).2 8 (by simpa using hb) (by simpa using hk)
      simpa using this
    show prgaRun st ((b ^^^ (prgaStep st).2) % 256 :: prgaRun (prgaStep st).1 rest) = b :: rest
    show ((b ^^^ (prgaStep st).2) % 256 ^^^ (prgaStep st).2) % 256 ::
        prgaRun (prgaStep st).1 (prgaRun (prgaStep st).1 rest) = b :: rest
    rw [Nat.mod_eq_of_lt hxor, Nat.xor_cancel_right, Nat.mod_eq_of_lt hb]
    rw [ih (prgaStep st).1 (fun x hx => hd x (by simp [hx])) hs']

/-- C1. Applying the stream cipher twice with the same non-empty key
returns any data buffer (bytes < 256, i.e. `unsigned char` values) to its
original contents: `mdbi_rc4 key (mdbi_rc4 key data) = data`. -/
theorem mdbi_rc4_involutive (key data : List Nat)
    (hk : 1 ≤ key.length) (hd : ∀ b ∈ data, b < 256) :
    mdbi_rc4 key (mdbi_rc4 key data) = data := by
  unfold mdbi_rc4
  exact prgaRun_invol data (rc4ksa key, 0, 0) hd (rc4ksa_lt key)

/-- Witness for C1 at key "KEY" and data "Plaintext". -/
theorem mdbi_rc4_involutive_witness :
    mdbi_rc4 [75, 69, 89] (mdbi_rc4 [75, 69, 89]
      [80, 108, 97, 105, 110, 116, 101, 120, 116]) =
      [80, 108, 97, 105, 110, 116, 101, 120, 116] :=
  mdbi_rc4_involutive [75, 69, 89] [80, 108, 97, 105, 110, 116, 101, 120, 116]
    (by decide) (by decide)

/-! ## Associative container: `GHashTable` (mdbfakeglib.c, lines 430-555)

A `GHashTable` holds a comparison predicate and a pointer array of
`HashEntry {key, value}` records; we parameterize each operation by the
predicate `cmp` and model the entry array as a `List (κ × ν)` (entries are
only ever added through a successful allocation, so none are null). -/

/-- `g_hash_table_insert`: linear scan with `table->compare(entry->key, key)`;
on the first match overwrite the value (keeping the stored key), otherwise
append a fresh entry at the end of the array. -/
def g_hash_table_insert (cmp : κ → κ → Bool) : List (κ × ν) → κ → ν → List (κ × ν)
  | [], k, v => [(k, v)]
  | e :: rest, k, v =>
    if cmp e.1 k then (e.1, v) :: rest
    else e :: g_hash_table_insert cmp rest k v

/-- `g_hash_table_lookup`: return the value of the first entry whose stored
key compares equal to the probe key, or null (`none`). -/
def g_hash_table_lookup (cmp : κ → κ → Bool) : List (κ × ν) → κ → Option ν
  | [], _ => none
  | e :: rest, k => if cmp e.1 k then some e.2 else g_hash_table_lookup cmp rest k

/-- `g_hash_table_remove`: free the first entry whose key compares equal and
shift the remaining entries left by one. -/
def g_hash_table_remove (cmp : κ → κ → Bool) : List (κ × ν) → κ → List (κ × ν)
  | [], _ => []
  | e :: rest, k => if cmp e.1 k then rest else e :: g_hash_table_remove cmp rest k

/-- `g_hash_table_foreach_remove`: visit the entries in order; remove (and
compact over) each entry on which the caller predicate returns true. -/
def g_hash_table_foreach_remove (p : κ → ν → Bool) : List (κ × ν) → List (κ × ν)
  | [] => []
  | e :: rest =>
    if p e.1 e.2 then g_hash_table_foreach_remove p rest
    else e :: g_hash_table_foreach_remove p rest

/-- One mutation of the associative container. -/
inductive TableOp (κ ν : Type) where
  | insert (k : κ) (v : ν)
  | remove (k : κ)
  | foreachRemove (p : κ → ν → Bool)

def applyTableOp (cmp : κ → κ → Bool) (ents : List (κ × ν)) : TableOp κ ν → List (κ × ν)
  | .insert k v => g_hash_table_insert cmp ents k v
  | .remove k => g_hash_table_remove cmp ents k
  | .foreachRemove p => g_hash_table_foreach_remove p ents

/-- A sequence of container mutations starting from a given entry array
(`g_hash_table_new` starts from the empty array). -/
def applyTableOps (cmp : κ → κ → Bool) (ents : List (κ × ν)) (ops : List (TableOp κ ν)) :
    List (κ × ν) :=
  ops.foldl (applyTableOp cmp) ents

/-- Two entries have distinct keys under `cmp`, in both comparison orders. -/
def KeysDistinct (cmp : κ → κ → Bool) (e1 e2 : κ × ν) : Prop :=
  cmp e1.1 e2.1 = false ∧ cmp e2.1 e1.1 = false

theorem insert_key_origin {cmp : κ → κ → Bool} {l : List (κ × ν)} {k : κ} {v : ν} :
    ∀ x ∈ g_hash_table_insert cmp l k v, (∃ y ∈ l, x.1 = y.1) ∨ x.1 = k := by
  induction l with
  | nil =>
    intro x hx
    have hxkv : x = (k, v) := by simpa [g_hash_table_insert] using hx
    right; rw [hxkv]
  | cons e rest ih =>
    intro x hx
    rw [show g_hash_table_insert cmp (e :: rest) k v =
      if cmp e.1 k then (e.1, v) :: rest
      else e :: g_hash_table_insert cmp rest k v from rfl] at hx
    by_cases hc : cmp e.1 k
    · rw [if_pos hc] at hx
      rcases List.mem_cons.mp hx with hx' | hx'
      · left; exact ⟨e, List.mem_cons_self e rest, by rw [hx']⟩
      · left; exact ⟨x, List.mem_cons_of_mem e hx', rfl⟩
    · rw [if_neg hc] at hx
      rcases List.mem_cons.mp hx with hx' | hx'
      · left; exact ⟨e, List.mem_cons_self e rest, by rw [hx']⟩
      · rcases ih x hx' with ⟨y, hy, hxy⟩ | hxk
        · left; exact ⟨y, List.mem_cons_of_mem e hy, hxy⟩
        · right; exact hxk

theorem insert_pairwise {cmp : κ → κ → Bool} (hsymm : ∀ a b, cmp a b = cmp b a)
    {l : List (κ × ν)} (k : κ) (v : ν)
    (h : List.Pairwise (KeysDistinct cmp) l) :
    List.Pairwise (KeysDistinct cmp) (g_hash_table_insert cmp l k v) := by
  induction l with
  | nil => simp [g_hash_table_insert]
  | cons e rest ih =>
    rw [List.pairwise_cons] at h
    obtain ⟨he, hrest⟩ := h
    by_cases hc : cmp e.1 k
    · show List.Pairwise _ (if cmp e.1 k then (e.1, v) :: rest else _)
      rw [if_pos hc]
      rw [List.pairwise_cons]
      exact ⟨fun y hy => he y hy, hrest⟩
    · show List.Pairwise _ (if cmp e.1 k then _ else e :: g_hash_table_insert cmp rest k v)
      rw [if_neg hc]
      rw [List.pairwise_cons]
      refine ⟨?_, ih hrest⟩
      intro x hx
      rcases insert_key_origin x hx with ⟨y, hy, hxy⟩ | hxk
      · have hey := he y hy
        exact ⟨by show cmp e.1 x.1 = false; rw [hxy]; exact hey.1,
          by show cmp x.1 e.1 = false; rw [hxy]; exact hey.2⟩
      · constructor
        · show cmp e.1 x.1 = false
          rw [hxk]; exact Bool.eq_false_iff.mpr hc
        · show cmp x.1 e.1 = false
          rw [hxk, hsymm]; exact Bool.eq_false_iff.mpr hc

theorem remove_sublist {cmp : κ → κ → Bool} (l : List (κ × ν)) (k : κ) :
    (g_hash_table_remove cmp l k).Sublist l := by
  induction l with
  | nil => simp [g_hash_table_remove]
  | cons e rest ih =>
    show (if cmp e.1 k then rest else e :: g_hash_table_remove cmp rest k).Sublist (e :: rest)
    by_cases hc : cmp e.1 k
    · rw [if_pos hc]; exact List.sublist_cons_self e rest
    · rw [if_neg hc]; exact ih.cons₂ e

theorem foreach_remove_sublist (p : κ → ν → Bool) (l : List (κ × ν)) :
    (g_hash_table_foreach_remove p l).Sublist l := by
  induction l with
  | nil => simp [g_hash_table_foreach_remove]
  | cons e rest ih =>
    show (if p e.1 e.2 then g_hash_table_foreach_remove p rest
      else e :: g_hash_table_foreach_remove p rest).Sublist (e :: rest)
    by_cases hc : p e.1 e.2
    · rw [if_pos hc]; exact ih.cons e
    · rw [if_neg hc]; exact ih.cons₂ e

theorem applyTableOps_pairwise {cmp : κ → κ → Bool} (hsymm : ∀ a b, cmp a b = cmp b a)
    (ops : List (TableOp κ ν)) :
    ∀ ents : List (κ × ν), List.Pairwise (KeysDistinct cmp) ents →
      List.Pairwise (KeysDistinct cmp) (applyTableOps cmp ents ops) := by
  induction ops with
  | nil => intro ents h; exact h
  | cons op rest ih =>
    intro ents h
    refine ih (applyTableOp cmp ents op) ?_
    cases op with
    | insert k v => exact insert_pairwise hsymm k v h
    | remove k => exact List.Pairwise.sublist (remove_sublist ents k) h
    | foreachRemove p => exact List.Pairwise.sublist (foreach_remove_sublist p ents) h

theorem lookup_insert {cmp : κ → κ → Bool} (hrefl : ∀ a, cmp a a = true)
    (ents : List (κ × ν)) (k : κ) (v : ν) :
    g_hash_table_lookup cmp (g_hash_table_insert cmp ents k v) k = some v := by
  induction ents with
  | nil => simp [g_hash_table_insert, g_hash_table_lookup, hrefl k]
  | cons e rest ih =>
    show g_hash_table_lookup cmp
      (if cmp e.1 k then (e.1, v) :: rest else e :: g_hash_table_insert cmp rest k v) k = some v
    by_cases hc : cmp e.1 k
    · rw [if_pos hc]
      show (if cmp e.1 k then some v else _) = some v
      rw [if_pos hc]
    · rw [if_neg hc]
      show (if cmp e.1 k then some e.2 else g_hash_table_lookup cmp
        (g_hash_table_insert cmp rest k v) k) = some v
      rw [if_neg hc]
      exact ih

/-- C2. With an equality predicate that is reflexive and symmetric, (a) after
any sequence of insert/remove/foreach-remove operations starting from the
empty table, no two stored entries have keys equal under the predicate, and
(b) `insert` immediately followed by `lookup` with the same key returns the
just-inserted value, on any entry array. -/
theorem g_hash_table_spec {κ ν : Type} (cmp : κ → κ → Bool)
    (hrefl : ∀ a, cmp a a = true) (hsymm : ∀ a b, cmp a b = cmp b a) :
    (∀ ops : List (TableOp κ ν),
        List.Pairwise (KeysDistinct cmp) (applyTableOps cmp [] ops)) ∧
    (∀ (ents : List (κ × ν)) (k : κ) (v : ν),
        g_hash_table_lookup cmp (g_hash_table_insert cmp ents k v) k = some v) :=
  ⟨fun ops => applyTableOps_pairwise hsymm ops [] (by simp),
   fun ents k v => lookup_insert hrefl ents k v⟩

/-- Witness for C2: insert 1 ↦ 10 then 1 ↦ 20 into a Nat-keyed table and
look 1 up. -/
theorem g_hash_table_spec_witness :
    g_hash_table_lookup (fun a b : Nat => decide (a = b))
      (g_hash_table_insert (fun a b : Nat => decide (a = b)) [(1, 10)] 1 20) 1 =
      some 20 :=
  (g_hash_table_spec (ν := Nat) (fun a b : Nat => decide (a = b))
    (fun a => by simp)
    (fun a b => by rw [decide_eq_decide]; exact eq_comm)).2 [(1, 10)] 1 20

/-! ## Growable string buffer: `GString` (mdbfakeglib.c, lines 210-290)

`str` is the backing byte storage (`allocated_len` bytes), `len` the logical
length; a NUL terminator lives at `str[len]`.  Input C strings are modelled
as the list of their bytes before the terminator (so `strlen` is `length`),
`malloc`ed or `realloc`-grown bytes that were never written are modelled as
0, and every allocation is assumed to succeed (the claim considers only
operation sequences in which each operation succeeds). -/

structure GString where
  str : List Nat
  len : Nat
  allocated_len : Nat

/-- `memcpy(buf + off, src, src.length)`: overwrite in place. -/
def memWrite (buf : List Nat) (off : Nat) (src : List Nat) : List Nat :=
  buf.take off ++ src ++ buf.drop (off + src.length)

/-- `realloc` of a byte buffer to `newLen` bytes (only ever used to grow). -/
def reallocBytes (buf : List Nat) (newLen : Nat) : List Nat :=
  buf.take newLen ++ List.replicate (newLen - buf.length) 0

/-- `g_string_new`: with an initializer, capacity is exactly `len + 1` and
the initializer is copied with its terminator; with none, capacity 16 and
`str[0] = '\0'`. -/
def g_string_new : Option (List Nat) → GString
  | some init =>
    { str := init ++ [0], len := init.length, allocated_len := init.length + 1 }
  | none =>
    { str := memWrite (List.replicate 16 0) 0 [0], len := 0, allocated_len := 16 }

/-- `g_string_assign`: grow to exactly `len + 1` bytes if needed, then copy
the new content and its terminator over the start of the buffer. -/
def g_string_assign (g : GString) (rval : List Nat) : GString :=
  let l := rval.length
  let g1 := if g.allocated_len < l + 1 then
      { g with str := reallocBytes g.str (l + 1), allocated_len := l + 1 }
    else g
  { g1 with str := memWrite g1.str 0 (rval ++ [0]), len := l }

/-- `g_string_append`: when `new_len + 1` exceeds capacity, grow to
`2 * (new_len + 1)`; then copy the appended content and its terminator at
offset `len`. -/
def g_string_append (g : GString) (val : List Nat) : GString :=
  let nl := g.len + val.length
  let g1 := if g.allocated_len < nl + 1 then
      { g with str := reallocBytes g.str ((nl + 1) * 2), allocated_len := (nl + 1) * 2 }
    else g
  { g1 with str := memWrite g1.str g.len (val ++ [0]), len := nl }

/-- One string-buffer mutation. -/
inductive StrOp where
  | assign (s : List Nat)
  | append (s : List Nat)

def applyStrOp (g : GString) : StrOp → GString
  | .assign s => g_string_assign g s
  | .append s => g_string_append g s

def applyStrOps (g : GString) (ops : List StrOp) : GString :=
  ops.foldl applyStrOp g

/-- The reference model of the logical contents: assign replaces, append
concatenates. -/
def refContent (m : List Nat) : StrOp → List Nat
  | .assign s => s
  | .append s => m ++ s

def refContents (m : List Nat) (ops : List StrOp) : List Nat :=
  ops.foldl refContent m

def refInit : Option (List Nat) → List Nat
  | some s => s
  | none => []

/-- The invariant carried through every operation: the storage really has
`allocated_len` bytes, capacity exceeds the logical length, the length
agrees with the reference model, and the terminator sits at `str[len]`. -/
def GStrInv (g : GString) (m : List Nat) : Prop :=
  g.str.length = g.allocated_len ∧ g.len + 1 ≤ g.allocated_len ∧
    g.len = m.length ∧ g.str.getD g.len 1 = 0

theorem getD_append_left {l r : List Nat} {i : Nat} (h : i < l.length) (d : Nat) :
    (l ++ r).getD i d = l.getD i d := by
  rw [List.getD_eq_getElem?_getD, List.getD_eq_getElem?_getD,
    List.getElem?_append_left h]

theorem getD_append_terminator (w : List Nat) (r : List Nat) :
    (w ++ 0 :: r).getD w.length 1 = 0 := by
  rw [List.getD_eq_getElem?_getD, List.getElem?_append_right (Nat.le_refl _)]
  simp

theorem memWrite_length {buf src : List Nat} {off : Nat}
    (h : off + src.length ≤ buf.length) :
    (memWrite buf off src).length = buf.length := by
  unfold memWrite
  simp only [List.length_append, List.length_take, List.length_drop]
  omega

theorem reallocBytes_length (buf : List Nat) (newLen : Nat)
    (h : buf.length ≤ newLen) :
    (reallocBytes buf newLen).length = newLen := by
  unfold reallocBytes
  simp only [List.length_append, List.length_take, List.length_replicate]
  omega

theorem g_string_new_inv (init : Option (List Nat)) :
    GStrInv (g_string_new init) (refInit init) := by
  cases init with
  | some s =>
    refine ⟨by simp [g_string_new], by simp [g_string_new], by simp [g_string_new, refInit], ?_⟩
    show (s ++ 0 :: []).getD s.length 1 = 0
    exact getD_append_terminator s []
  | none =>
    refine ⟨by simp [g_string_new, memWrite], by simp [g_string_new], by simp [g_string_new, refInit], ?_⟩
    show (memWrite (List.replicate 16 0) 0 [0]).getD 0 1 = 0
    rfl

theorem g_string_assign_inv {g : GString} {m : List Nat} (h : GStrInv g m)
    (rval : List Nat) : GStrInv (g_string_assign g rval) rval := by
  obtain ⟨hlen, hcap, hm, hterm⟩ := h
  unfold g_string_assign
  dsimp only
  by_cases hgrow : g.allocated_len < rval.length + 1
  · rw [if_pos hgrow]
    have hb : (reallocBytes g.str (rval.length + 1)).length = rval.length + 1 :=
      reallocBytes_length g.str (rval.length + 1) (by omega)
    refine ⟨?_, by show rval.length + 1 ≤ rval.length + 1; omega, rfl, ?_⟩
    · show (memWrite (reallocBytes g.str (rval.length + 1)) 0 (rval ++ [0])).length
        = rval.length + 1
      rw [memWrite_length (by simp [hb]), hb]
    · show (memWrite (reallocBytes g.str (rval.length + 1)) 0 (rval ++ [0])).getD
        rval.length 1 = 0
      unfold memWrite
      simp only [List.take_zero, List.nil_append, Nat.zero_add]
      rw [List.append_assoc]
      exact getD_append_terminator rval _
  · rw [if_neg hgrow]
    refine ⟨?_, by show rval.length + 1 ≤ g.allocated_len; omega, rfl, ?_⟩
    · show (memWrite g.str 0 (rval ++ [0])).length = g.allocated_len
      rw [memWrite_length (by simp; omega)]
      exact hlen
    · show (memWrite g.str 0 (rval ++ [0])).getD rval.length 1 = 0
      unfold memWrite
      simp only [List.take_zero, List.nil_append, Nat.zero_add]
      rw [List.append_assoc]
      exact getD_append_terminator rval _

theorem g_string_append_inv {g : GString} {m : List Nat} (h : GStrInv g m)
    (val : List Nat) : GStrInv (g_string_append g val) (m ++ val) := by
  obtain ⟨hlen, hcap, hm, hterm⟩ := h
  unfold g_string_append
  dsimp only
  by_cases hgrow : g.allocated_len < g.len + val.length + 1
  · rw [if_pos hgrow]
    have hb : (reallocBytes g.str ((g.len + val.length + 1) * 2)).length
        = (g.len + val.length + 1) * 2 :=
      reallocBytes_length g.str _ (by omega)
    have hoff : g.len + (val ++ [0]).length
        ≤ (reallocBytes g.str ((g.len + val.length + 1) * 2)).length := by
      simp [hb]; omega
    refine ⟨?_, by show g.len + val.length + 1 ≤ (g.len + val.length + 1) * 2; omega,
      by show g.len + val.length = (m ++ val).length; simp [hm], ?_⟩
    · show (memWrite (reallocBytes g.str ((g.len + val.length + 1) * 2)) g.len
        (val ++ [0])).length = (g.len + val.length + 1) * 2
      rw [memWrite_length hoff, hb]
    · show (memWrite (reallocBytes g.str ((g.len + val.length + 1) * 2)) g.len
        (val ++ [0])).getD (g.len + val.length) 1 = 0
      unfold memWrite
      have htk : ((reallocBytes g.str ((g.len + val.length + 1) * 2)).take g.len).length
          = g.len := by
        rw [List.length_take]; omega
      rw [List.append_assoc, List.getD_eq_getElem?_getD,
        List.getElem?_append_right (by omega), htk]
      have : g.len + val.length - g.len = val.length := by omega
      rw [this, ← List.getD_eq_getElem?_getD, List.append_assoc]
      exact getD_append_terminator val _
  · rw [if_neg hgrow]
    have hoff : g.len + (val ++ [0]).length ≤ g.str.length := by
      simp [hlen]; omega
    refine ⟨?_, by show g.len + val.length + 1 ≤ g.allocated_len; omega,
      by show g.len + val.length = (m ++ val).length; simp [hm], ?_⟩
    · show (memWrite g.str g.len (val ++ [0])).length = g.allocated_len
      rw [memWrite_length hoff]; exact hlen
    · show (memWrite g.str g.len (val ++ [0])).getD (g.len + val.length) 1 = 0
      unfold memWrite
      have htk : (g.str.take g.len).length = g.len := by
        rw [List.length_take]; omega
      rw [List.append_assoc, List.getD_eq_getElem?_getD,
        List.getElem?_append_right (by omega), htk]
      have : g.len + val.length - g.len = val.length := by omega
      rw [this, ← List.getD_eq_getElem?_getD, List.append_assoc]
      exact getD_append_terminator val _

theorem applyStrOps_inv (ops : List StrOp) :
    ∀ (g : GString) (m : List Nat), GStrInv g m →
      GStrInv (applyStrOps g ops) (refContents m ops) := by
  induction ops with
  | nil => intro g m h; exact h
  | cons op rest ih =>
    intro g m h
    cases op with
    | assign s => exact ih _ _ (g_string_assign_inv h s)
    | append s => exact ih _ _ (g_string_append_inv h s)

/-- C3. After any sequence of (successful) assign/append operations on a
fresh buffer, the logical length equals the length of the reference-model
string (assign replaces, append concatenates), the capacity is at least
`length + 1`, and a NUL terminator is stored at position `length`. -/
theorem g_string_ops_spec (init : Option (List Nat)) (ops : List StrOp) :
    (applyStrOps (g_string_new init) ops).len
        = (refContents (refInit init) ops).length ∧
    (applyStrOps (g_string_new init) ops).len + 1
        ≤ (applyStrOps (g_string_new init) ops).allocated_len ∧
    (applyStrOps (g_string_new init) ops).str.getD
        (applyStrOps (g_string_new init) ops).len 1 = 0 := by
  obtain ⟨h1, h2, h3, h4⟩ := applyStrOps_inv ops (g_string_new init) (refInit init)
    (g_string_new_inv init)
  exact ⟨h3, h2, h4⟩

/-! ## Dynamic pointer array: `GPtrArray` (mdbfakeglib.c, lines 292-368)

`pdata` models the `len` valid slots `[0, len)` of the backing storage;
opaque handles are `Nat`, compared by identity (`=`, as C compares the
pointers themselves).  `g_ptr_array_add` reallocates to exactly `len + 1`
slots (the fresh uninitialized slot is modelled as 0) and then stores the
handle at index `len`; the outcome of the reallocation is an explicit
`allocOk` parameter, and on failure the function returns with the array
untouched. -/

structure GPtrArray where
  len : Nat
  pdata : List Nat

/-- `realloc` of a pointer-slot buffer to `newSize` slots. -/
def reallocSlots (buf : List Nat) (newSize : Nat) : List Nat :=
  buf.take newSize ++ List.replicate (newSize - buf.length) 0

/-- `g_ptr_array_add`: grow the backing storage by exactly one slot and
store the handle at the new last position; on allocation failure, return
leaving the array unchanged. -/
def g_ptr_array_add (a : GPtrArray) (entry : Nat) (allocOk : Bool) : GPtrArray :=
  if allocOk then
    { len := a.len + 1, pdata := (reallocSlots a.pdata (a.len + 1)).set a.len entry }
  else a

/-- The scan-and-shift loop of `g_ptr_array_remove` over the valid slots:
drop the first slot identical to `data`, shifting the rest left. -/
def ptrRemoveScan (data : Nat) : List Nat → List Nat × Bool
  | [] => ([], false)
  | x :: rest =>
    if x = data then (rest, true)
    else
      let r := ptrRemoveScan data rest
      (x :: r.1, r.2)

/-- `g_ptr_array_remove`: linear scan by identity; on a match shift every
subsequent slot left by one and decrement `len`, returning TRUE/FALSE. -/
def g_ptr_array_remove (a : GPtrArray) (data : Nat) : GPtrArray × Bool :=
  let r := ptrRemoveScan data a.pdata
  ({ len := if r.2 then a.len - 1 else a.len, pdata := r.1 }, r.2)

theorem reallocSlots_grow {buf : List Nat} {n : Nat} (h : buf.length = n) :
    reallocSlots buf (n + 1) = buf ++ [0] := by
  unfold reallocSlots
  rw [List.take_of_length_le (by omega)]
  congr 1
  rw [h]
  simp [List.replicate_succ]

theorem set_append_length {l : List Nat} {x d : Nat} :
    (l ++ [d]).set l.length x = l ++ [x] := by
  induction l with
  | nil => rfl
  | cons a t ih => simp [List.set, ih]

theorem ptrRemoveScan_not_mem {data : Nat} {l : List Nat} (h : data ∉ l) :
    ptrRemoveScan data l = (l, false) := by
  induction l with
  | nil => rfl
  | cons x rest ih =>
    have hx : ¬ x = data := fun hx => h (by rw [hx]; exact List.mem_cons_self data rest)
    have hrest : data ∉ rest := fun hr => h (List.mem_cons_of_mem x hr)
    show (if x = data then (rest, true) else
      ((ptrRemoveScan data rest).1.cons x, (ptrRemoveScan data rest).2)) = (x :: rest, false)
    rw [if_neg hx, ih hrest]

theorem ptrRemoveScan_mem {data : Nat} {l : List Nat} (h : data ∈ l) :
    ptrRemoveScan data l =
      (l.take (l.indexOf data) ++ l.drop (l.indexOf data + 1), true) := by
  induction l with
  | nil => cases h
  | cons x rest ih =>
    show (if x = data then (rest, true) else
      ((ptrRemoveScan data rest).1.cons x, (ptrRemoveScan data rest).2)) = _
    by_cases hx : x = data
    · rw [if_pos hx]
      have : (x :: rest).indexOf data = 0 := by
        rw [List.indexOf_cons]
        simp [hx]
      rw [this]
      simp
    · rw [if_neg hx]
      have hrest : data ∈ rest := by
        rcases List.mem_cons.mp h with h' | h'
        · exact absurd h'.symm hx
        · exact h'
      have : (x :: rest).indexOf data = rest.indexOf data + 1 := by
        rw [List.indexOf_cons]
        have : (x == data) = false := by simpa using hx
        rw [this]
        rfl
      rw [ih hrest, this]
      simp

theorem ptrRemoveScan_sublist (data : Nat) (l : List Nat) :
    (ptrRemoveScan data l).1.Sublist l := by
  induction l with
  | nil => simp [ptrRemoveScan]
  | cons x rest ih =>
    show (if x = data then (rest, true) else
      ((ptrRemoveScan data rest).1.cons x, (ptrRemoveScan data rest).2)).1.Sublist (x :: rest)
    by_cases hx : x = data
    · rw [if_pos hx]; exact List.sublist_cons_self x rest
    · rw [if_neg hx]; exact ih.cons₂ x

/-- C8. Append and remove preserve the relative order of the remaining
elements: append leaves the existing slots in place and puts the new handle
last; remove deletes exactly the first slot identical to the handle,
shifting the subsequent slots left (so the survivors, a sublist, keep their
order) and decrementing the length, and reports found/not-found. -/
theorem g_ptr_array_order_spec (a : GPtrArray) (x : Nat)
    (hlen : a.pdata.length = a.len) :
    ((g_ptr_array_add a x true).pdata = a.pdata ++ [x] ∧
      (g_ptr_array_add a x true).len = a.len + 1) ∧
    ((g_ptr_array_remove a x).1.pdata =
        if x ∈ a.pdata then
          a.pdata.take (a.pdata.indexOf x) ++ a.pdata.drop (a.pdata.indexOf x + 1)
        else a.pdata) ∧
    ((g_ptr_array_remove a x).2 = (x ∈ a.pdata : Bool)) ∧
    ((g_ptr_array_remove a x).1.pdata.Sublist a.pdata) ∧
    (x ∈ a.pdata → (g_ptr_array_remove a x).1.len = a.len - 1) := by
  refine ⟨⟨?_, rfl⟩, ?_, ?_, ?_, ?_⟩
  · show (reallocSlots a.pdata (a.len + 1)).set a.len x = a.pdata ++ [x]
    rw [reallocSlots_grow hlen, ← hlen, set_append_length]
  · by_cases hx : x ∈ a.pdata
    · rw [if_pos hx]
      show (ptrRemoveScan x a.pdata).1 = _
      rw [ptrRemoveScan_mem hx]
    · rw [if_neg hx]
      show (ptrRemoveScan x a.pdata).1 = a.pdata
      rw [ptrRemoveScan_not_mem hx]
  · by_cases hx : x ∈ a.pdata
    · show (ptrRemoveScan x a.pdata).2 = _
      rw [ptrRemoveScan_mem hx]
      simp [hx]
    · show (ptrRemoveScan x a.pdata).2 = _
      rw [ptrRemoveScan_not_mem hx]
      simp [hx]
  · exact ptrRemoveScan_sublist x a.pdata
  · intro hx
    show (if (ptrRemoveScan x a.pdata).2 then a.len - 1 else a.len) = a.len - 1
    rw [ptrRemoveScan_mem hx]
    rfl

/-- Witness for C8: removing 2 from [1, 2, 3]. -/
theorem g_ptr_array_order_spec_witness :
    (g_ptr_array_remove ⟨3, [1, 2, 3]⟩ 2).1.pdata = [1, 3] ∧
      (g_ptr_array_remove ⟨3, [1, 2, 3]⟩ 2).2 = true :=
  ⟨((g_ptr_array_order_spec ⟨3, [1, 2, 3]⟩ 2 (by decide)).2.1).trans (by decide),
   ((g_ptr_array_order_spec ⟨3, [1, 2, 3]⟩ 2 (by decide)).2.2.1).trans (by decide)⟩

/-- C9. Append grows the backing storage by exactly one slot and stores the
handle at the new last position; if the reallocation fails it is a silent
no-op leaving length and contents unchanged. -/
theorem g_ptr_array_add_spec (a : GPtrArray) (x : Nat)
    (hlen : a.pdata.length = a.len) :
    ((g_ptr_array_add a x true).pdata.length = a.pdata.length + 1 ∧
      (g_ptr_array_add a x true).len = a.len + 1 ∧
      (g_ptr_array_add a x true).pdata = a.pdata ++ [x] ∧
      (g_ptr_array_add a x true).pdata.getLast? = some x) ∧
    g_ptr_array_add a x false = a := by
  have hp : (g_ptr_array_add a x true).pdata = a.pdata ++ [x] := by
    show (reallocSlots a.pdata (a.len + 1)).set a.len x = a.pdata ++ [x]
    rw [reallocSlots_grow hlen, ← hlen, set_append_length]
  refine ⟨⟨by rw [hp]; simp, rfl, hp, by rw [hp]; simp⟩, rfl⟩

/-- Witness for C9: appending 7 to [5, 6], with the success and failure
outcomes of the reallocation. -/
theorem g_ptr_array_add_spec_witness :
    (g_ptr_array_add ⟨2, [5, 6]⟩ 7 true).pdata = [5, 6, 7] ∧
      g_ptr_array_add ⟨2, [5, 6]⟩ 7 false = ⟨2, [5, 6]⟩ :=
  ⟨((g_ptr_array_add_spec ⟨2, [5, 6]⟩ 7 (by decide)).1.2.2.1).trans (by decide),
   (g_ptr_array_add_spec ⟨2, [5, 6]⟩ 7 (by decide)).2⟩

/-! ## Text transcoder (mdbtools-missing 2.c, lines 103-156)

Both converters take the source bytes (`src`, with `slen = src.length`),
the caller's destination buffer `dest` (which may be longer than the
declared capacity `dlen`), and write into it; the result is the final
destination buffer paired with the returned count `j`. -/

/-- One unit of the wide-to-narrow conversion: pass the low byte through
when the high byte is 0 (ASCII or extended ASCII), else emit `'?'` (63). -/
def u2aConv (low high : Nat) : Nat :=
  if high = 0 ∧ low < 128 then low
  else if high = 0 ∧ low ≠ 0 then low
  else 63

/-- The conversion loop of `mdb_unicode2ascii`: consume the source two
bytes at a time (`high` is 0 when the source ends mid-unit) while fewer
than `dlen - 1` output bytes have been produced. -/
def u2aLoop : List Nat → Nat → List Nat
  | _, 0 => []
  | [], _ + 1 => []
  | [low], _ + 1 => [u2aConv low 0]
  | low :: high :: rest, n + 1 => u2aConv low high :: u2aLoop rest n

/-- `mdb_unicode2ascii(mdb, src, slen, dest, dlen)`: with `dlen = 0` no
byte is written; otherwise at most `dlen - 1` converted bytes are written
at the start of `dest`, followed by a NUL terminator, and the byte count
before the terminator is returned. -/
def mdb_unicode2ascii (src dest : List Nat) (dlen : Nat) : List Nat × Nat :=
  if dlen = 0 then (dest, 0)
  else
    let w := u2aLoop src (dlen - 1)
    (memWrite dest 0 (w ++ [0]), w.length)

/-- The conversion loop of `mdb_ascii2unicode`: emit `src[i]` then a 0 high
byte, while `j < dlen - 1` (the budget argument is `dlen - 1 - j`, which
falls by 2 per iteration). -/
def a2uLoop : List Nat → Nat → List Nat
  | [], _ => []
  | _ :: _, 0 => []
  | b :: rest, n + 1 => b :: 0 :: a2uLoop rest (n - 1)

/-- `mdb_ascii2unicode(mdb, src, slen, dest, dlen)`: write the 2-byte
little-endian promotion of the source at the start of `dest` and return the
number of bytes written; no terminator is appended. -/
def mdb_ascii2unicode (src dest : List Nat) (dlen : Nat) : List Nat × Nat :=
  if dlen = 0 then (dest, 0)
  else
    let w := a2uLoop src (dlen - 1)
    (memWrite dest 0 w, w.length)

theorem u2aLoop_length (src : List Nat) (n : Nat) : (u2aLoop src n).length ≤ n := by
  induction src, n using u2aLoop.induct with
  | case1 src => simp [u2aLoop]
  | case2 n => simp [u2aLoop]
  | case3 low n => simp [u2aLoop]
  | case4 low high rest n ih =>
    simp only [u2aLoop, List.length_cons]
    omega

/-- C5. `mdb_unicode2ascii` never writes at any destination index `≥ dlen`:
for any source and any destination buffer at least `dlen` long, the buffer
keeps its length, everything from index `dlen` on is untouched, and the
write (the returned count plus the terminator) fits in `dlen` bytes, i.e.
at most `dlen - 1` content bytes plus one terminator are written. -/
theorem mdb_unicode2ascii_no_overflow (src dest : List Nat) (dlen : Nat)
    (h1 : 1 ≤ dlen) (h2 : dlen ≤ dest.length) :
    (mdb_unicode2ascii src dest dlen).1.length = dest.length ∧
    (mdb_unicode2ascii src dest dlen).1.drop dlen = dest.drop dlen ∧
    (mdb_unicode2ascii src dest dlen).2 + 1 ≤ dlen := by
  have hd0 : ¬ dlen = 0 := by omega
  have hw : (u2aLoop src (dlen - 1)).length ≤ dlen - 1 := u2aLoop_length src (dlen - 1)
  unfold mdb_unicode2ascii
  rw [if_neg hd0]
  dsimp only
  refine ⟨?_, ?_, by omega⟩
  · show (memWrite dest 0 (u2aLoop src (dlen - 1) ++ [0])).length = dest.length
    exact memWrite_length (by simp; omega)
  · show (memWrite dest 0 (u2aLoop src (dlen - 1) ++ [0])).drop dlen = dest.drop dlen
    unfold memWrite
    simp only [List.take_zero, List.nil_append, Nat.zero_add]
    rw [List.drop_append_eq_append_drop]
    rw [List.drop_eq_nil_of_le (by simp; omega)]
    rw [List.nil_append, List.drop_drop]
    congr 1
    simp only [List.length_append, List.length_singleton]
    omega

/-- Witness for C5 at a two-unit source and a four-byte destination with
declared capacity 3. -/
theorem mdb_unicode2ascii_no_overflow_witness :
    (mdb_unicode2ascii [65, 0, 66, 0] [9, 9, 9, 9] 3).1.length = 4 ∧
      (mdb_unicode2ascii [65, 0, 66, 0] [9, 9, 9, 9] 3).1.drop 3 = [9] ∧
      (mdb_unicode2ascii [65, 0, 66, 0] [9, 9, 9, 9] 3).2 + 1 ≤ 3 := by
  obtain ⟨ha, hb, hc⟩ :=
    mdb_unicode2ascii_no_overflow [65, 0, 66, 0] [9, 9, 9, 9] 3 (by decide) (by decide)
  exact ⟨ha.trans (by decide), hb.trans (by decide), hc⟩

/-- The ASCII-to-UTF-16LE promotion of a byte string: each byte followed by
a zero high byte (what the `mdb_ascii2unicode` loop produces when the
destination budget never runs out). -/
def widen : List Nat → List Nat
  | [] => []
  | b :: rest => b :: 0 :: widen rest

theorem a2uLoop_full (src : List Nat) :
    ∀ n, 2 * src.length ≤ n → a2uLoop src n = widen src := by
  induction src with
  | nil => intro n _; cases n <;> rfl
  | cons b rest ih =>
    intro n hn
    match n, hn with
    | m + 1, hn =>
      show b :: 0 :: a2uLoop rest (m - 1) = b :: 0 :: widen rest
      rw [ih (m - 1) (by simp at hn; omega)]

theorem u2aLoop_widen (src : List Nat) (hb : ∀ b ∈ src, b < 128) :
    ∀ n, src.length ≤ n → u2aLoop (widen src) n = src := by
  induction src with
  | nil => intro n _; cases n <;> rfl
  | cons b rest ih =>
    intro n hn
    match n, hn with
    | m + 1, hn =>
      show u2aConv b 0 :: u2aLoop (widen rest) m = b :: rest
      rw [u2aConv, if_pos ⟨rfl, hb b (by simp)⟩]
      rw [ih (fun x hx => hb x (by simp [hx])) m (by simp at hn; omega)]

/-- C6. Round trip: promoting a byte string whose bytes are in 1..127 with
`mdb_ascii2unicode` and converting the produced bytes back with
`mdb_unicode2ascii`, with sufficiently large destination capacities, yields
the original byte string (as the returned count and the content written
before the terminator). -/
theorem transcode_roundtrip (src dest1 dest2 : List Nat) (d1 d2 : Nat)
    (hb : ∀ b ∈ src, 1 ≤ b ∧ b ≤ 127)
    (h1 : 2 * src.length + 1 ≤ d1) (h1c : d1 ≤ dest1.length)
    (h2 : src.length + 1 ≤ d2) (h2c : d2 ≤ dest2.length) :
    (mdb_unicode2ascii
        ((mdb_ascii2unicode src dest1 d1).1.take (mdb_ascii2unicode src dest1 d1).2)
        dest2 d2).2 = src.length ∧
    (mdb_unicode2ascii
        ((mdb_ascii2unicode src dest1 d1).1.take (mdb_ascii2unicode src dest1 d1).2)
        dest2 d2).1.take src.length = src := by
  have hd1 : ¬ d1 = 0 := by omega
  have hd2 : ¬ d2 = 0 := by omega
  have hful : a2uLoop src (d1 - 1) = widen src := a2uLoop_full src (d1 - 1) (by omega)
  have hmid : (mdb_ascii2unicode src dest1 d1).1.take (mdb_ascii2unicode src dest1 d1).2
      = widen src := by
    unfold mdb_ascii2unicode
    rw [if_neg hd1]
    dsimp only
    rw [hful]
    show (memWrite dest1 0 (widen src)).take (widen src).length = widen src
    unfold memWrite
    simp only [List.take_zero, List.nil_append, Nat.zero_add]
    rw [List.take_left]
  rw [hmid]
  have hlt : ∀ b ∈ src, b < 128 := fun b h => by have := hb b h; omega
  have hu : u2aLoop (widen src) (d2 - 1) = src :=
    u2aLoop_widen src hlt (d2 - 1) (by omega)
  unfold mdb_unicode2ascii
  rw [if_neg hd2]
  dsimp only
  rw [hu]
  refine ⟨rfl, ?_⟩
  show (memWrite dest2 0 (src ++ [0])).take src.length = src
  unfold memWrite
  simp only [List.take_zero, List.nil_append, Nat.zero_add]
  rw [List.append_assoc]
  rw [List.take_append_of_le_length (by simp)]
  exact List.take_length src

/-- Witness for C6 at src "Hi" with 8- and 4-byte destinations. -/
theorem transcode_roundtrip_witness :
    (mdb_unicode2ascii
        ((mdb_ascii2unicode [72, 105] [9, 9, 9, 9, 9, 9, 9, 9] 8).1.take
          (mdb_ascii2unicode [72, 105] [9, 9, 9, 9, 9, 9, 9, 9] 8).2)
        [9, 9, 9, 9] 4).2 = 2 ∧
    (mdb_unicode2ascii
        ((mdb_ascii2unicode [72, 105] [9, 9, 9, 9, 9, 9, 9, 9] 8).1.take
          (mdb_ascii2unicode [72, 105] [9, 9, 9, 9, 9, 9, 9, 9] 8).2)
        [9, 9, 9, 9] 4).1.take 2 = [72, 105] :=
  transcode_roundtrip [72, 105] [9, 9, 9, 9, 9, 9, 9, 9] [9, 9, 9, 9] 8 4
    (by decide) (by decide) (by decide) (by decide) (by decide)

/-- C7 counterexample: `mdb_ascii2unicode` does not NUL-terminate.  For
source byte 65 and a 6-byte destination prefilled with 7s, the byte at the
returned offset (immediately after the produced bytes) still holds 7. -/
theorem mdb_ascii2unicode_no_terminator :
    ¬ ((mdb_ascii2unicode [65] [7, 7, 7, 7, 7, 7] 6).1.getD
        (mdb_ascii2unicode [65] [7, 7, 7, 7, 7, 7] 6).2 0 = 0) := by decide

/-- C7 amended: `mdb_unicode2ascii` does NUL-terminate its output (a 0 is
stored immediately after the content bytes it produced), while
`mdb_ascii2unicode` writes only the converted byte pairs and leaves the
rest of the destination — including the position right after its output —
unchanged, storing no terminator. -/
theorem transcoder_terminator_spec (src dest : List Nat) (dlen : Nat)
    (h1 : 1 ≤ dlen) (h2 : dlen ≤ dest.length) :
    (mdb_unicode2ascii src dest dlen).1.getD (mdb_unicode2ascii src dest dlen).2 1 = 0 ∧
    (mdb_ascii2unicode src dest dlen).1.drop (mdb_ascii2unicode src dest dlen).2
      = dest.drop (mdb_ascii2unicode src dest dlen).2 := by
  have hd0 : ¬ dlen = 0 := by omega
  constructor
  · unfold mdb_unicode2ascii
    rw [if_neg hd0]
    dsimp only
    show (memWrite dest 0 (u2aLoop src (dlen - 1) ++ [0])).getD
      (u2aLoop src (dlen - 1)).length 1 = 0
    unfold memWrite
    simp only [List.take_zero, List.nil_append, Nat.zero_add]
    rw [List.append_assoc]
    exact getD_append_terminator _ _
  · unfold mdb_ascii2unicode
    rw [if_neg hd0]
    dsimp only
    show (memWrite dest 0 (a2uLoop src (dlen - 1))).drop (a2uLoop src (dlen - 1)).length
      = dest.drop (a2uLoop src (dlen - 1)).length
    unfold memWrite
    simp only [List.take_zero, List.nil_append, Nat.zero_add]
    rw [List.drop_append_eq_append_drop]
    rw [List.drop_eq_nil_of_le (Nat.le_refl _), Nat.sub_self, List.nil_append]
    rfl

/-- Witness for the amended C7 at a one-unit source and capacity 4. -/
theorem transcoder_terminator_spec_witness :
    (mdb_unicode2ascii [65, 0] [7, 7, 7, 7] 4).1.getD
        (mdb_unicode2ascii [65, 0] [7, 7, 7, 7] 4).2 1 = 0 ∧
      (mdb_ascii2unicode [65, 0] [7, 7, 7, 7] 4).1.drop
          (mdb_ascii2unicode [65, 0] [7, 7, 7, 7] 4).2
        = [7, 7, 7, 7].drop (mdb_ascii2unicode [65, 0] [7, 7, 7, 7] 4).2 :=
  transcoder_terminator_spec [65, 0] [7, 7, 7, 7] 4 (by decide) (by decide)

/-! ## Delimiter split: `g_strsplit` (mdbfakeglib.c, lines 105-136)

Strings are `List Char`; a NULL haystack/needle and the empty-needle
rejection are the `Option`/empty-list cases.  `strstr` returns the index of
the first occurrence of the needle.  The source counts the tokens first and
then emits exactly that many, breaking at the cap or at the last occurrence;
`splitLoop` is that emission loop (`i` is the loop counter, `maxTokens` the
cap), fused with the count that fixes how many slots the result holds. -/

/-- `strstr(p, needle)` as the index of the first position where `needle`
is a prefix of the remaining text. -/
def strstr (needle : List Char) : List Char → Option Nat
  | [] => if needle.isPrefixOf [] then some 0 else none
  | a :: t =>
    if needle.isPrefixOf (a :: t) then some 0
    else (strstr needle t).map (fun i => i + 1)

theorem strstr_some {needle hay : List Char} {i : Nat}
    (h : strstr needle hay = some i) :
    needle <+: hay.drop i ∧ i ≤ hay.length := by
  induction hay generalizing i with
  | nil =>
    by_cases hp : needle.isPrefixOf []
    · have h0 : i = 0 := by
        rw [strstr, if_pos hp] at h
        exact (Option.some.injEq _ _ ▸ h).symm
      subst h0
      exact ⟨List.isPrefixOf_iff_prefix.mp hp, Nat.zero_le _⟩
    · rw [strstr, if_neg hp] at h
      cases h
  | cons a t ih =>
    by_cases hp : needle.isPrefixOf (a :: t)
    · have h0 : i = 0 := by
        rw [strstr, if_pos hp] at h
        exact (Option.some.injEq _ _ ▸ h).symm
      subst h0
      exact ⟨List.isPrefixOf_iff_prefix.mp hp, Nat.zero_le _⟩
    · rw [strstr, if_neg hp] at h
      cases hj : strstr needle t with
      | none => rw [hj] at h; cases h
      | some j =>
        rw [hj] at h
        have hij : i = j + 1 := by
          have := Option.some.injEq (j + 1) i ▸ h
          exact this.symm
        subst hij
        obtain ⟨hpre, hle⟩ := ih hj
        exact ⟨hpre, by simpa using Nat.succ_le_succ hle⟩

theorem strstr_none_iff {needle hay : List Char} :
    strstr needle hay = none ↔ ¬ needle <:+: hay := by
  induction hay with
  | nil =>
    by_cases hp : needle.isPrefixOf []
    · rw [strstr, if_pos hp]
      have : needle <:+: [] := (List.isPrefixOf_iff_prefix.mp hp).isInfix
      simp [this]
    · rw [strstr, if_neg hp]
      have : ¬ needle <:+: [] := by
        intro hinf
        have hnil : needle = [] := by simpa using hinf
        subst hnil
        exact hp rfl
      simp [this]
  | cons a t ih =>
    by_cases hp : needle.isPrefixOf (a :: t)
    · rw [strstr, if_pos hp]
      have : needle <:+: a :: t := (List.isPrefixOf_iff_prefix.mp hp).isInfix
      simp [this]
    · rw [strstr, if_neg hp]
      rw [Option.map_eq_none', ih, List.infix_cons_iff]
      constructor
      · intro hni hor
        rcases hor with hpre | hinf
        · exact hp (List.isPrefixOf_iff_prefix.mpr hpre)
        · exact hni hinf
      · intro hall hinf
        exact hall (Or.inr hinf)

theorem strstr_drop_lt {n0 : Char} {nt hay : List Char} {i : Nat}
    (h : strstr (n0 :: nt) hay = some i) :
    (hay.drop (i + (nt.length + 1))).length < hay.length := by
  obtain ⟨hpre, hle⟩ := strstr_some h
  have hlen : nt.length + 1 ≤ hay.length - i := by
    have := hpre.length_le
    simpa [List.length_drop] using this
  rw [List.length_drop]
  omega

theorem strstr_reconstruct {n0 : Char} {nt hay : List Char} {i : Nat}
    (h : strstr (n0 :: nt) hay = some i) :
    hay = hay.take i ++ (n0 :: nt) ++ hay.drop (i + (nt.length + 1)) := by
  obtain ⟨hpre, _⟩ := strstr_some h
  obtain ⟨tl, htl⟩ := hpre
  have htl' : tl = hay.drop (i + (nt.length + 1)) := by
    have hd := congrArg (List.drop (nt.length + 1)) htl
    rw [show List.drop (nt.length + 1) ((n0 :: nt) ++ tl) = tl from
      List.drop_left (n0 :: nt) tl] at hd
    rw [hd, List.drop_drop]
  calc hay = hay.take i ++ hay.drop i := (List.take_append_drop i hay).symm
    _ = hay.take i ++ ((n0 :: nt) ++ tl) := by rw [htl]
    _ = hay.take i ++ (n0 :: nt) ++ hay.drop (i + (nt.length + 1)) := by
        rw [htl', List.append_assoc]

/-- The token-emission loop of `g_strsplit`: emit the text up to the next
occurrence and advance past it, or emit all remaining text when there is no
further occurrence or the cap is reached (`max_tokens > 0 && i ==
max_tokens - 1`). -/
def splitLoop (n0 : Char) (nt : List Char) (m : Int) (p : List Char) (i : Nat) :
    List (List Char) :=
  match hs : strstr (n0 :: nt) p with
  | none => [p]
  | some idx =>
    if 0 < m ∧ (i : Int) = m - 1 then [p]
    else p.take idx :: splitLoop n0 nt m (p.drop (idx + (nt.length + 1))) (i + 1)
termination_by p.length
decreasing_by exact strstr_drop_lt hs

/-- `g_strsplit(haystack, needle, max_tokens)`: NULL on an empty needle,
otherwise the emitted tokens (the NULL sentinel that ends the C result
array is the end of the list). -/
def g_strsplit (haystack needle : List Char) (maxTokens : Int) :
    Option (List (List Char)) :=
  match needle with
  | [] => none
  | n0 :: nt => some (splitLoop n0 nt maxTokens haystack 0)

/-- The number of needle occurrences consumed by an uncapped scan: the
token-counting loop of `g_strsplit` with `max_tokens <= 0` counts
`occCount + 1` tokens. -/
def occCount (n0 : Char) (nt : List Char) (p : List Char) : Nat :=
  match hs : strstr (n0 :: nt) p with
  | none => 0
  | some idx => occCount n0 nt (p.drop (idx + (nt.length + 1))) + 1
termination_by p.length
decreasing_by exact strstr_drop_lt hs

/-- The delimiter-separated fields of `p`: what the split produces with no
cap (the reference decomposition for the capped split). -/
def fields (n0 : Char) (nt : List Char) (p : List Char) : List (List Char) :=
  match hs : strstr (n0 :: nt) p with
  | none => [p]
  | some idx => p.take idx :: fields n0 nt (p.drop (idx + (nt.length + 1)))
termination_by p.length
decreasing_by exact strstr_drop_lt hs

/-- Join a list of tokens, putting the separator between adjacent tokens. -/
def joinWith (sep : List Char) : List (List Char) → List Char
  | [] => []
  | [x] => x
  | x :: y :: rest => x ++ sep ++ joinWith sep (y :: rest)

theorem splitLoop_eq_none {n0 : Char} {nt p : List Char} {m : Int} {i : Nat}
    (h : strstr (n0 :: nt) p = none) : splitLoop n0 nt m p i = [p] := by
  unfold splitLoop
  split
  · rfl
  · rename_i idx heq
    rw [h] at heq
    cases heq

theorem splitLoop_eq_some {n0 : Char} {nt p : List Char} {m : Int} {i idx : Nat}
    (h : strstr (n0 :: nt) p = some idx) :
    splitLoop n0 nt m p i =
      if 0 < m ∧ (i : Int) = m - 1 then [p]
      else p.take idx :: splitLoop n0 nt m (p.drop (idx + (nt.length + 1))) (i + 1) := by
  conv_lhs => rw [splitLoop]
  split
  · rename_i heq
    rw [h] at heq
    cases heq
  · rename_i idx2 heq
    rw [h] at heq
    cases heq
    rfl

theorem occCount_eq_none {n0 : Char} {nt p : List Char}
    (h : strstr (n0 :: nt) p = none) : occCount n0 nt p = 0 := by
  unfold occCount
  split
  · rfl
  · rename_i idx heq
    rw [h] at heq
    cases heq

theorem occCount_eq_some {n0 : Char} {nt p : List Char} {idx : Nat}
    (h : strstr (n0 :: nt) p = some idx) :
    occCount n0 nt p = occCount n0 nt (p.drop (idx + (nt.length + 1))) + 1 := by
  conv_lhs => rw [occCount]
  split
  · rename_i heq
    rw [h] at heq
    cases heq
  · rename_i idx2 heq
    rw [h] at heq
    cases heq
    rfl

theorem fields_eq_none {n0 : Char} {nt p : List Char}
    (h : strstr (n0 :: nt) p = none) : fields n0 nt p = [p] := by
  unfold fields
  split
  · rfl
  · rename_i idx heq
    rw [h] at heq
    cases heq

theorem fields_eq_some {n0 : Char} {nt p : List Char} {idx : Nat}
    (h : strstr (n0 :: nt) p = some idx) :
    fields n0 nt p = p.take idx :: fields n0 nt (p.drop (idx + (nt.length + 1))) := by
  conv_lhs => rw [fields]
  split
  · rename_i heq
    rw [h] at heq
    cases heq
  · rename_i idx2 heq
    rw [h] at heq
    cases heq
    rfl

theorem fields_ne_nil (n0 : Char) (nt p : List Char) : fields n0 nt p ≠ [] := by
  cases hs : strstr (n0 :: nt) p with
  | none => rw [fields_eq_none hs]; simp
  | some idx => rw [fields_eq_some hs]; simp

theorem fields_length_occ (n0 : Char) (nt : List Char) (p : List Char) :
    (fields n0 nt p).length = occCount n0 nt p + 1 := by
  cases hs : strstr (n0 :: nt) p with
  | none => rw [fields_eq_none hs, occCount_eq_none hs]; rfl
  | some idx =>
    rw [fields_eq_some hs, occCount_eq_some hs]
    rw [List.length_cons, fields_length_occ n0 nt (p.drop (idx + (nt.length + 1)))]
termination_by p.length
decreasing_by exact strstr_drop_lt hs

theorem joinWith_fields (n0 : Char) (nt : List Char) (p : List Char) :
    joinWith (n0 :: nt) (fields n0 nt p) = p := by
  cases hs : strstr (n0 :: nt) p with
  | none => rw [fields_eq_none hs]; rfl
  | some idx =>
    rw [fields_eq_some hs]
    have hrec := joinWith_fields n0 nt (p.drop (idx + (nt.length + 1)))
    cases hf : fields n0 nt (p.drop (idx + (nt.length + 1))) with
    | nil => exact absurd hf (fields_ne_nil n0 nt _)
    | cons f0 frest =>
      rw [hf] at hrec
      show p.take idx ++ (n0 :: nt) ++ joinWith (n0 :: nt) (f0 :: frest) = p
      rw [hrec]
      exact (strstr_reconstruct hs).symm
termination_by p.length
decreasing_by exact strstr_drop_lt hs

theorem splitLoop_cap (n0 : Char) (nt : List Char) (k : Nat) (p : List Char)
    (i : Nat) (hik : i < k) (hocc : k - 1 - i ≤ occCount n0 nt p) :
    splitLoop n0 nt (k : Int) p i =
      (fields n0 nt p).take (k - 1 - i) ++
        [joinWith (n0 :: nt) ((fields n0 nt p).drop (k - 1 - i))] := by
  cases hs : strstr (n0 :: nt) p with
  | none =>
    have h0 : occCount n0 nt p = 0 := occCount_eq_none hs
    have hz : k - 1 - i = 0 := by omega
    rw [splitLoop_eq_none hs, fields_eq_none hs, hz]
    rfl
  | some idx =>
    by_cases hcap : (i : Int) = (k : Int) - 1
    · have hz : k - 1 - i = 0 := by omega
      rw [splitLoop_eq_some hs,
        if_pos (⟨by omega, hcap⟩ : 0 < (k : Int) ∧ (i : Int) = (k : Int) - 1)]
      rw [hz]
      show [p] = [] ++ [joinWith (n0 :: nt) ((fields n0 nt p).drop 0)]
      rw [List.drop_zero, List.nil_append, joinWith_fields]
    · have hik2 : i + 1 < k := by omega
      have hro : occCount n0 nt p
          = occCount n0 nt (p.drop (idx + (nt.length + 1))) + 1 :=
        occCount_eq_some hs
      have hocc2 : k - 1 - (i + 1) ≤ occCount n0 nt (p.drop (idx + (nt.length + 1))) := by
        omega
      rw [splitLoop_eq_some hs, if_neg (fun hand => hcap hand.2), fields_eq_some hs]
      rw [splitLoop_cap n0 nt k (p.drop (idx + (nt.length + 1))) (i + 1) hik2 hocc2]
      obtain ⟨r, hr⟩ : ∃ r, k - 1 - i = r + 1 := ⟨k - 2 - i, by omega⟩
      have hr2 : k - 1 - (i + 1) = r := by omega
      rw [hr, hr2, List.take_succ_cons, List.drop_succ_cons]
      rfl
termination_by p.length
decreasing_by exact strstr_drop_lt hs

/-- C4. If the input has at least `k - 1` delimiter occurrences and
`k ≥ 1`, splitting with the max-token cap `k` yields exactly `k` tokens:
the first `k - 1` delimiter-separated fields followed by one token holding
all the remaining unsplit text (the remaining fields joined back with the
delimiter, i.e. the text after the first `k - 1` occurrences). -/
theorem g_strsplit_cap_spec (n0 : Char) (nt hay : List Char) (k : Nat)
    (hk : 1 ≤ k) (hocc : k - 1 ≤ occCount n0 nt hay) :
    g_strsplit hay (n0 :: nt) (k : Int) =
      some ((fields n0 nt hay).take (k - 1) ++
        [joinWith (n0 :: nt) ((fields n0 nt hay).drop (k - 1))]) ∧
    ((fields n0 nt hay).take (k - 1) ++
        [joinWith (n0 :: nt) ((fields n0 nt hay).drop (k - 1))]).length = k := by
  constructor
  · show some (splitLoop n0 nt (k : Int) hay 0) = _
    rw [splitLoop_cap n0 nt k hay 0 (by omega) (by simpa using hocc)]
    rfl
  · have hf : (fields n0 nt hay).length = occCount n0 nt hay + 1 :=
      fields_length_occ n0 nt hay
    rw [List.length_append, List.length_take]
    simp only [List.length_singleton]
    omega

/-- Witness for C4: `split("a,b,c", ",", 2) = ["a", "b,c"]`. -/
theorem g_strsplit_cap_spec_witness :
    g_strsplit ['a', ',', 'b', ',', 'c'] [','] ((2 : Nat) : Int) =
      some [['a'], ['b', ',', 'c']] := by
  have hs1 : strstr [','] ['a', ',', 'b', ',', 'c'] = some 1 := by decide
  have hocc : 2 - 1 ≤ occCount ',' [] ['a', ',', 'b', ',', 'c'] := by
    rw [occCount_eq_some hs1]
    omega
  have h := (g_strsplit_cap_spec ',' [] ['a', ',', 'b', ',', 'c'] 2
    (by decide) hocc).1
  have hs2 : strstr [','] ['b', ',', 'c'] = some 1 := by decide
  have hs3 : strstr [','] ['c'] = none := by decide
  have hf3 : fields ',' [] ['c'] = [['c']] := fields_eq_none hs3
  have hf2 : fields ',' [] ['b', ',', 'c'] = [['b'], ['c']] := by
    rw [fields_eq_some hs2]
    show (['b'] : List Char) :: fields ',' [] ['c'] = [['b'], ['c']]
    rw [hf3]
  have hf1 : fields ',' [] ['a', ',', 'b', ',', 'c'] = [['a'], ['b'], ['c']] := by
    rw [fields_eq_some hs1]
    show (['a'] : List Char) :: fields ',' [] ['b', ',', 'c'] = [['a'], ['b'], ['c']]
    rw [hf2]
  rw [h, hf1]
  rfl

/-- C10. For a non-empty delimiter, split never returns an empty token
sequence, and when the delimiter does not occur in the input (including the
empty input) the result is exactly one token holding the whole input. -/
theorem g_strsplit_no_occurrence (hay needle : List Char) (m : Int)
    (hne : needle ≠ []) :
    (∃ r, g_strsplit hay needle m = some r ∧ r ≠ []) ∧
    (¬ needle <:+: hay → g_strsplit hay needle m = some [hay]) := by
  obtain ⟨n0, nt, rfl⟩ : ∃ n0 nt, needle = n0 :: nt := by
    cases needle with
    | nil => exact absurd rfl hne
    | cons a t => exact ⟨a, t, rfl⟩
  constructor
  · refine ⟨splitLoop n0 nt m hay 0, rfl, ?_⟩
    cases hs : strstr (n0 :: nt) hay with
    | none => rw [splitLoop_eq_none hs]; simp
    | some idx =>
      rw [splitLoop_eq_some hs]
      by_cases hcap : 0 < m ∧ ((0 : Nat) : Int) = m - 1
      · rw [if_pos hcap]; simp
      · rw [if_neg hcap]; simp
  · intro hinf
    have hs : strstr (n0 :: nt) hay = none := strstr_none_iff.mpr hinf
    show some (splitLoop n0 nt m hay 0) = some [hay]
    rw [splitLoop_eq_none hs]

/-- Witness for C10: splitting "ab" on "x" with a cap of 3. -/
theorem g_strsplit_no_occurrence_witness :
    g_strsplit ['a', 'b'] ['x'] (3 : Int) = some [['a', 'b']] :=
  (g_strsplit_no_occurrence ['a', 'b'] ['x'] 3 (by decide)).2 (by decide)

end MdbCore
